import Mathlib

/-!
# Verification of the CLI Habit Tracker (`src/habit_tracker/src/main.rs`)

A shallow embedding of the habit-tracker program and proofs of its
specification claims.

## Modelling conventions

* A `chrono::NaiveDate` is modelled as its day number, an `Int` bounded below
  by `NaiveDate.minDay` (chrono's `NaiveDate::MIN`, January 1 of 262145 BCE).
  `NaiveDate.pred_opt` mirrors `pred_opt`: it returns `none` exactly at the
  minimum representable date, which is where `pred_opt().unwrap()` panics.
* A habit's completion history is stored in the program as `Vec<String>` of
  canonical `"YYYY-MM-DD"` strings, written only by `mark_done`.  Under that
  store invariant, lexicographic string order coincides with date order and
  every stored string parses; we therefore model `completions` directly as
  `List Int` of day numbers.  The program's defensive skip of unparseable
  strings in `calculate_streak` is vacuous under this invariant.
* `calculate_streak` can panic (`pred_opt().unwrap()` on `None`); the model
  returns `Option Nat`, with `none` standing for the panic.
* The `HashMap<String, Habit>` is modelled as an association list with the
  map's first-match (= unique-match) lookup semantics; `get_mut` + in-place
  mutation becomes rebuilding the list with the first matching entry updated.
* `Local::now()` is modelled by passing the current date explicitly.
* Persistence: `serde_json` values are modelled by `JsonValue`; the data file
  is a `FileState` (missing, or present with a `JsonValue`).  Serialization of
  the store and its deserialization are modelled structurally (`encodeTracker`
  / `decodeTracker`), mirroring the derived `Serialize`/`Deserialize` shape:
  `{"habits": {name: {"name": ..., "completions": [...]}}}`.
-/

namespace HabitTrackerModel

/-- Day number of `chrono::NaiveDate::MIN` (January 1, 262145 BCE), counted in
days from CE (`num_days_from_ce` convention).  The exact value is immaterial
to the development; only the existence of a minimum representable date
matters. -/
def NaiveDate.minDay : Int := -95746495

/-- `NaiveDate::pred_opt`: the previous calendar day, or `None` when already
at the minimum representable date. -/
def NaiveDate.pred_opt (d : Int) : Option Int :=
  if NaiveDate.minDay < d then some (d - 1) else none

/-- `struct Habit { name: String, completions: Vec<String> }`, with the
completion-date strings modelled as parsed day numbers. -/
structure Habit where
  name : String
  completions : List Int
  deriving DecidableEq, Repr

/-- `Habit::new`: a new habit with no completions yet. -/
def Habit.new (name : String) : Habit :=
  { name := name, completions := [] }

/-- The program sorts the completion strings ascending (`sort()`) and then
reverses (`reverse()`), yielding reverse chronological order.  (`sort()` is a
stable ascending sort; on integer day numbers any ascending sort computes the
same list, so we use insertion sort, which the kernel can evaluate.) -/
def sortDescending (l : List Int) : List Int :=
  (List.insertionSort (fun a b => a ≤ b) l).reverse

/-- The `for completion in sorted_completions` loop of `calculate_streak`:
walk the dates newest first with `current_date` the expected date; on a match
increment the streak and step to the previous day via
`pred_opt().unwrap()` (`none` = panic); on a mismatch stop. -/
def streakLoop : List Int → Int → Nat → Option Nat
  | [], _, streak => some streak
  | compDate :: rest, currentDate, streak =>
      if compDate = currentDate then
        match NaiveDate.pred_opt currentDate with
        | some prev => streakLoop rest prev (streak + 1)
        | none => none
      else
        some streak

/-- `Habit::calculate_streak`, with `today` the date `Local::now()` returns.
Result `none` models the `pred_opt().unwrap()` panic. -/
def Habit.calculate_streak (h : Habit) (today : Int) : Option Nat :=
  if h.completions.isEmpty then
    some 0
  else
    streakLoop (sortDescending h.completions) today 0

/-- `struct HabitTracker { habits: HashMap<String, Habit> }`, the map
modelled as an association list (unique keys in any reachable store). -/
structure HabitTracker where
  habits : List (String × Habit)
  deriving DecidableEq, Repr

/-- `HabitTracker::new`: an empty tracker. -/
def HabitTracker.new : HabitTracker :=
  { habits := [] }

/-- `self.habits.contains_key(&name)`. -/
def HabitTracker.contains_key (t : HabitTracker) (name : String) : Bool :=
  t.habits.any (fun p => p.1 = name)

/-- `self.habits.get(&name)`: the entry for `name` (the first match, which is
the unique match under the map's key uniqueness). -/
def HabitTracker.lookup (t : HabitTracker) (name : String) : Option Habit :=
  (t.habits.find? (fun p => p.1 = name)).map Prod.snd

/-- Outcome printed by `add_habit`. -/
inductive AddOutcome where
  | alreadyExists
  | added
  deriving DecidableEq, Repr

/-- Outcome printed by `mark_done`. -/
inductive MarkOutcome where
  | notFound
  | alreadyDoneToday
  | markedDone
  deriving DecidableEq, Repr

/-- `HabitTracker::add_habit`: no-op with a message if the name exists,
otherwise insert `Habit::new(name)`. -/
def HabitTracker.add_habit (t : HabitTracker) (name : String) :
    HabitTracker × AddOutcome :=
  if t.contains_key name then
    (t, .alreadyExists)
  else
    ({ habits := t.habits ++ [(name, Habit.new name)] }, .added)

/-- The `habits.get_mut(&name)` + match of `mark_done`, rendered on the
association list: find the entry for `name`; if `today` is already among its
completions do nothing, otherwise push `today` onto its completions. -/
def markList (name : String) (today : Int) :
    List (String × Habit) → List (String × Habit) × MarkOutcome
  | [] => ([], .notFound)
  | p :: rest =>
      if p.1 = name then
        if today ∈ p.2.completions then
          (p :: rest, .alreadyDoneToday)
        else
          ((p.1, { p.2 with completions := p.2.completions ++ [today] }) :: rest,
            .markedDone)
      else
        let r := markList name today rest
        (p :: r.1, r.2)

/-- `HabitTracker::mark_done`, with `today` the date `Local::now()` formats. -/
def HabitTracker.mark_done (t : HabitTracker) (name : String) (today : Int) :
    HabitTracker × MarkOutcome :=
  let r := markList name today t.habits
  ({ habits := r.1 }, r.2)

/-- A `serde_json` value of the shapes the data file can contain.  A
completion-date string (`"YYYY-MM-DD"`) is abstracted as its parsed day
number (`date`); `str` covers any other string, so ill-shaped files are
representable. -/
inductive JsonValue where
  | date (day : Int)
  | str (s : String)
  | arr (elems : List JsonValue)
  | obj (fields : List (String × JsonValue))

/-- Struct-field access during deserialization (order-independent, as with
derived `Deserialize`). -/
def lookupField (fields : List (String × JsonValue)) (key : String) :
    Option JsonValue :=
  (fields.find? (fun p => p.1 = key)).map Prod.snd

/-- Derived `Serialize` for `Habit`. -/
def encodeHabit (h : Habit) : JsonValue :=
  .obj [("name", .str h.name), ("completions", .arr (h.completions.map .date))]

/-- Deserialize one completion-date string. -/
def decodeDate : JsonValue → Option Int
  | .date day => some day
  | _ => none

/-- Deserialize a `Vec<String>` of completion dates. -/
def decodeDates : List JsonValue → Option (List Int)
  | [] => some []
  | v :: rest =>
      match decodeDate v, decodeDates rest with
      | some d, some ds => some (d :: ds)
      | _, _ => none

/-- Derived `Deserialize` for `Habit`. -/
def decodeHabit : JsonValue → Option Habit
  | .obj fields =>
      match lookupField fields "name", lookupField fields "completions" with
      | some (.str n), some (.arr elems) =>
          (decodeDates elems).map (fun cs => { name := n, completions := cs })
      | _, _ => none
  | _ => none

/-- Derived `Serialize` for `HabitTracker` (the `HashMap` becomes a JSON
object keyed by habit name). -/
def encodeTracker (t : HabitTracker) : JsonValue :=
  .obj [("habits", .obj (t.habits.map (fun p => (p.1, encodeHabit p.2))))]

/-- Deserialize the entries of the `habits` object. -/
def decodeEntries : List (String × JsonValue) → Option (List (String × Habit))
  | [] => some []
  | (k, v) :: rest =>
      match decodeHabit v, decodeEntries rest with
      | some h, some hs => some ((k, h) :: hs)
      | _, _ => none

/-- Derived `Deserialize` for `HabitTracker`. -/
def decodeTracker : JsonValue → Option HabitTracker
  | .obj fields =>
      match lookupField fields "habits" with
      | some (.obj entries) => (decodeEntries entries).map HabitTracker.mk
      | _ => none
  | _ => none

/-- The data file `habits.json`: either absent, or present with some
contents. -/
inductive FileState where
  | missing
  | present (contents : JsonValue)

/-- The error `load` propagates (`serde_json::from_str` failure, boxed as
`Box<dyn Error>`). -/
inductive LoadError where
  | parseError
  deriving DecidableEq, Repr

/-- `HabitTracker::load`: if the file does not exist return a new empty
tracker; otherwise parse the contents, propagating a parse failure. -/
def HabitTracker.load : FileState → Except LoadError HabitTracker
  | .missing => .ok HabitTracker.new
  | .present contents =>
      match decodeTracker contents with
      | some t => .ok t
      | none => .error .parseError

/-- `HabitTracker::save`: serialize the full store and write it, overwriting
the file. -/
def HabitTracker.save (t : HabitTracker) : FileState :=
  .present (encodeTracker t)

/-- `main`'s `HabitTracker::load().unwrap_or_else(|err| { eprintln!(...);
HabitTracker::new() })`: the tracker the command runs against, and whether a
diagnostic was printed to the error stream. -/
def loadOrDefault (fs : FileState) : HabitTracker × Bool :=
  match HabitTracker.load fs with
  | .ok t => (t, false)
  | .error _ => (HabitTracker.new, true)

/-- The spec's reference walk (§4.2 step 3): starting from `expected = today`,
if the date under inspection equals `expected`, increment the counter and
decrement `expected` by one calendar day; otherwise stop immediately. -/
def specWalk : List Int → Int → Nat
  | [], _ => 0
  | d :: rest, expected =>
      if d = expected then specWalk rest (expected - 1) + 1 else 0

/-- The spec's reference streak algorithm (§4.2): 0 on an empty collection,
else walk the dates sorted most-recent-first. -/
def specStreak (completions : List Int) (today : Int) : Nat :=
  if completions = [] then 0
  else specWalk (sortDescending completions) today

/-! ## Helper lemmas -/

theorem sortDescending_perm (l : List Int) : (sortDescending l).Perm l := by
  simpa [sortDescending] using
    (List.reverse_perm (List.insertionSort (fun a b => a ≤ b) l)).trans
      (List.perm_insertionSort _ l)

theorem mem_of_mem_sortDescending {a : Int} {l : List Int}
    (h : a ∈ sortDescending l) : a ∈ l :=
  (sortDescending_perm l).mem_iff.mp h

theorem length_sortDescending (l : List Int) :
    (sortDescending l).length = l.length :=
  (sortDescending_perm l).length_eq

theorem decodeDates_map (cs : List Int) :
    decodeDates (cs.map JsonValue.date) = some cs := by
  induction cs with
  | nil => rfl
  | cons c rest ih => simp [decodeDates, decodeDate, ih]

theorem decodeHabit_encodeHabit (h : Habit) :
    decodeHabit (encodeHabit h) = some h := by
  simp [encodeHabit, decodeHabit, lookupField, List.find?, decodeDates_map]

theorem decodeEntries_map (l : List (String × Habit)) :
    decodeEntries (l.map (fun p => (p.1, encodeHabit p.2))) = some l := by
  induction l with
  | nil => rfl
  | cons p rest ih => simp [decodeEntries, decodeHabit_encodeHabit, ih]

theorem decodeTracker_encodeTracker (t : HabitTracker) :
    decodeTracker (encodeTracker t) = some t := by
  simp [encodeTracker, decodeTracker, lookupField, List.find?, decodeEntries_map]

/-! ## Claims about persistence (C6, C7, C8) -/

/-- **C7.** When no persisted state file exists, `load` returns an empty
store (a store with no habits) and does not return an error. -/
theorem load_missing_returns_empty_store :
    HabitTracker.load FileState.missing = Except.ok HabitTracker.new ∧
    HabitTracker.new.habits = [] :=
  ⟨rfl, rfl⟩

/-- **C6.** Round-trip: for every store, `save` followed by `load` reproduces
an equivalent store — the same set of habit names, each mapped to a habit
with the same completion dates. -/
theorem save_load_round_trip (t : HabitTracker) :
    ∃ t', HabitTracker.load t.save = Except.ok t' ∧
      (∀ name, t'.contains_key name = t.contains_key name) ∧
      (∀ name, t'.lookup name = t.lookup name) := by
  refine ⟨t, ?_, fun _ => rfl, fun _ => rfl⟩
  simp [HabitTracker.save, HabitTracker.load, decodeTracker_encodeTracker]

/-- **C8.** When persisted state exists but fails to parse, `load` returns an
error (it does not silently succeed), and the command-dispatch caller
recovers by substituting an empty store and emitting a diagnostic, so the
process proceeds rather than aborting. -/
theorem load_corrupt_errors_and_caller_falls_back (j : JsonValue)
    (hbad : decodeTracker j = none) :
    HabitTracker.load (FileState.present j) = Except.error LoadError.parseError ∧
    loadOrDefault (FileState.present j) = (HabitTracker.new, true) := by
  constructor
  · simp [HabitTracker.load, hbad]
  · simp [loadOrDefault, HabitTracker.load, hbad]

/-- Witness for C8 at concrete corrupt contents: the file holds the bare
string `"garbage"`, which does not decode as a store. -/
theorem load_corrupt_errors_and_caller_falls_back_witness :
    decodeTracker (JsonValue.str "garbage") = none ∧
    HabitTracker.load (FileState.present (JsonValue.str "garbage")) =
      Except.error LoadError.parseError ∧
    loadOrDefault (FileState.present (JsonValue.str "garbage")) =
      (HabitTracker.new, true) :=
  ⟨rfl, load_corrupt_errors_and_caller_falls_back (JsonValue.str "garbage") rfl⟩

theorem markList_of_no_match {name : String} {d : Int} {l : List (String × Habit)}
    (h : ∀ p ∈ l, p.1 ≠ name) :
    markList name d l = (l, MarkOutcome.notFound) := by
  induction l with
  | nil => rfl
  | cons p rest ih =>
      have hp : p.1 ≠ name := h p (List.mem_cons_self p rest)
      have hrest := ih (fun q hq => h q (List.mem_cons_of_mem p hq))
      simp [markList, hp, hrest]

theorem add_habit_of_contains {t : HabitTracker} {name : String}
    (hc : t.contains_key name = true) :
    t.add_habit name = (t, AddOutcome.alreadyExists) := by
  simp [HabitTracker.add_habit, hc]

theorem contains_key_add_habit (t : HabitTracker) (name : String) :
    (t.add_habit name).1.contains_key name = true := by
  by_cases hc : t.contains_key name = true
  · simp [HabitTracker.add_habit, hc]
  · simp only [HabitTracker.add_habit, hc, if_neg, Bool.false_eq_true,
      not_false_iff, if_false]
    simp [HabitTracker.contains_key]

/-! ## Claims about store operations (C3, C5) -/

/-- **C3.** For every store and every habit name with no entry in the store,
`mark_done` on that name reports "not found" and leaves the store completely
unchanged. -/
theorem mark_done_not_found_preserves_store (t : HabitTracker) (name : String)
    (today : Int) (habsent : t.lookup name = none) :
    t.mark_done name today = (t, MarkOutcome.notFound) := by
  have hf : t.habits.find? (fun p => p.1 = name) = none := by
    cases hf : t.habits.find? (fun p => p.1 = name) with
    | none => rfl
    | some pr => rw [HabitTracker.lookup, hf] at habsent; cases habsent
  have hall : ∀ p ∈ t.habits, p.1 ≠ name := by
    intro p hp
    have := List.find?_eq_none.mp hf p hp
    simpa using this
  have hm := markList_of_no_match (d := today) hall
  simp [HabitTracker.mark_done, hm]

/-- Witness for C3: marking a habit absent from a one-habit store. -/
theorem mark_done_not_found_preserves_store_witness :
    HabitTracker.lookup ⟨[("workout", Habit.new "workout")]⟩ "reading" = none ∧
    HabitTracker.mark_done ⟨[("workout", Habit.new "workout")]⟩ "reading" 100 =
      (⟨[("workout", Habit.new "workout")]⟩, MarkOutcome.notFound) :=
  ⟨by decide,
    mark_done_not_found_preserves_store ⟨[("workout", Habit.new "workout")]⟩
      "reading" 100 (by decide)⟩

/-- **C5.** For every store already containing a habit of a given name,
`add_habit` with that name is a no-op that reports "already exists"; calling
`add_habit` twice with the same name is idempotent with respect to the data
(the second call always reports "already exists" and changes nothing). -/
theorem add_habit_existing_noop (t : HabitTracker) (name : String) :
    (t.contains_key name = true → t.add_habit name = (t, AddOutcome.alreadyExists)) ∧
    (t.add_habit name).1.add_habit name =
      ((t.add_habit name).1, AddOutcome.alreadyExists) :=
  ⟨fun hc => add_habit_of_contains hc,
    add_habit_of_contains (contains_key_add_habit t name)⟩

/-- Witness for C5 at a concrete store that already contains the habit. -/
theorem add_habit_existing_noop_witness :
    HabitTracker.contains_key ⟨[("workout", Habit.new "workout")]⟩ "workout" = true ∧
    HabitTracker.add_habit ⟨[("workout", Habit.new "workout")]⟩ "workout" =
      (⟨[("workout", Habit.new "workout")]⟩, AddOutcome.alreadyExists) ∧
    (HabitTracker.add_habit ⟨[("workout", Habit.new "workout")]⟩ "workout").1.add_habit
        "workout" =
      ((HabitTracker.add_habit ⟨[("workout", Habit.new "workout")]⟩ "workout").1,
        AddOutcome.alreadyExists) :=
  ⟨by decide,
    (add_habit_existing_noop ⟨[("workout", Habit.new "workout")]⟩ "workout").1
      (by decide),
    (add_habit_existing_noop ⟨[("workout", Habit.new "workout")]⟩ "workout").2⟩

/-! ## The uniqueness invariant on completion dates (C4) -/

/-- The store invariant of spec §3: a given calendar date appears at most
once in each habit's completion collection. -/
def StoreInv (t : HabitTracker) : Prop :=
  ∀ p ∈ t.habits, p.2.completions.Nodup

instance (t : HabitTracker) : Decidable (StoreInv t) :=
  List.decidableBAll _ t.habits

/-- The effect of `mark_done` on the habit it finds: a no-op when the date is
already present, otherwise a push of the date. -/
def markHabit (d : Int) (h : Habit) : Habit :=
  if d ∈ h.completions then h
  else { h with completions := h.completions ++ [d] }

theorem markList_of_already {name : String} {d : Int} :
    ∀ {l : List (String × Habit)} {pr : String × Habit},
      l.find? (fun p => p.1 = name) = some pr → d ∈ pr.2.completions →
      markList name d l = (l, MarkOutcome.alreadyDoneToday)
  | [], pr, hf, _ => by cases hf
  | p :: rest, pr, hf, hd => by
      by_cases hp : p.1 = name
      · rw [List.find?_cons_of_pos rest (by simpa using hp)] at hf
        cases hf
        simp [markList, hp, hd]
      · rw [List.find?_cons_of_neg rest (by simpa using hp)] at hf
        have := markList_of_already (l := rest) hf hd
        simp [markList, hp, this]

theorem find?_markList {name : String} {d : Int} :
    ∀ {l : List (String × Habit)} {pr : String × Habit},
      l.find? (fun p => p.1 = name) = some pr →
      (markList name d l).1.find? (fun p => p.1 = name) =
        some (pr.1, markHabit d pr.2)
  | [], pr, hf => by cases hf
  | p :: rest, pr, hf => by
      by_cases hp : p.1 = name
      · rw [List.find?_cons_of_pos rest (by simpa using hp)] at hf
        cases hf
        by_cases hd : d ∈ p.2.completions
        · simp only [markList, if_pos hp, if_pos hd]
          rw [List.find?_cons_of_pos rest (by simpa using hp)]
          simp [markHabit, hd]
        · simp only [markList, if_pos hp, if_neg hd]
          rw [List.find?_cons_of_pos rest (by simpa using hp)]
          simp [markHabit, hd]
      · rw [List.find?_cons_of_neg rest (by simpa using hp)] at hf
        have ih := find?_markList (l := rest) (d := d) hf
        simp only [markList, if_neg hp]
        rw [List.find?_cons_of_neg _ (by simpa using hp)]
        exact ih

theorem markList_nodup {name : String} {d : Int} :
    ∀ {l : List (String × Habit)},
      (∀ p ∈ l, p.2.completions.Nodup) →
      ∀ p ∈ (markList name d l).1, p.2.completions.Nodup
  | [], _, p, hp => by simp [markList] at hp
  | q :: rest, hinv, p, hp => by
      have hq := hinv q (List.mem_cons_self q rest)
      have hrest : ∀ r ∈ rest, r.2.completions.Nodup :=
        fun r hr => hinv r (List.mem_cons_of_mem q hr)
      by_cases hk : q.1 = name
      · by_cases hd : d ∈ q.2.completions
        · simp only [markList, if_pos hk, if_pos hd] at hp
          exact hinv p hp
        · simp only [markList, if_pos hk, if_neg hd, List.mem_cons] at hp
          rcases hp with hp | hp
          · subst hp
            simp only [List.nodup_append]
            refine ⟨hq, List.nodup_singleton d, ?_⟩
            intro x hx hx'
            simp only [List.mem_singleton] at hx'
            exact hd (hx' ▸ hx)
          · exact hrest p hp
      · simp only [markList, if_neg hk, List.mem_cons] at hp
        rcases hp with hp | hp
        · exact hp ▸ hq
        · exact markList_nodup hrest p hp

theorem lookup_mark_done {t : HabitTracker} {name : String} {d : Int}
    {h : Habit} (hl : t.lookup name = some h) :
    (t.mark_done name d).1.lookup name = some (markHabit d h) := by
  rw [HabitTracker.lookup] at hl
  cases hf : t.habits.find? (fun p => p.1 = name) with
  | none => rw [hf] at hl; cases hl
  | some pr =>
      rw [hf] at hl
      have hsnd : pr.2 = h := by simpa using hl
      have := find?_markList (d := d) hf
      simp [HabitTracker.mark_done, HabitTracker.lookup, this, hsnd]

theorem mem_of_lookup {t : HabitTracker} {name : String} {h : Habit}
    (hl : t.lookup name = some h) : ∃ k, (k, h) ∈ t.habits := by
  rw [HabitTracker.lookup] at hl
  cases hf : t.habits.find? (fun p => p.1 = name) with
  | none => rw [hf] at hl; cases hl
  | some pr =>
      rw [hf] at hl
      have hsnd : pr.2 = h := by simpa using hl
      have hmem := List.mem_of_find?_eq_some hf
      exact ⟨pr.1, by rw [← hsnd]; exact hmem⟩

theorem mem_markHabit (d : Int) (h : Habit) : d ∈ (markHabit d h).completions := by
  by_cases hd : d ∈ h.completions
  · simp only [markHabit, if_pos hd]; exact hd
  · simp [markHabit, hd]

theorem count_markHabit {d : Int} {h : Habit} (hnd : h.completions.Nodup) :
    (markHabit d h).completions.count d = 1 := by
  by_cases hd : d ∈ h.completions
  · simpa [markHabit, hd] using List.count_eq_one_of_mem hnd hd
  · simp [markHabit, hd, List.count_append, List.count_eq_zero.mpr hd]

theorem markHabit_idem (d : Int) (h : Habit) :
    markHabit d (markHabit d h) = markHabit d h := by
  have := mem_markHabit d h
  rw [markHabit, if_pos this]

/-- **C4.** The invariant that a calendar date appears at most once in each
habit's completion collection is preserved by every operation: `add_habit`
creates only empty collections, `mark_done` when the date is already present
is a no-op, and calling `mark_done` twice with the same date on the same
habit leaves exactly one occurrence of that date. -/
theorem completion_date_unique_invariant (t : HabitTracker) (name : String)
    (d : Int) (hinv : StoreInv t) :
    (Habit.new name).completions = [] ∧
    StoreInv (t.add_habit name).1 ∧
    StoreInv (t.mark_done name d).1 ∧
    (∀ h, t.lookup name = some h → d ∈ h.completions →
      t.mark_done name d = (t, MarkOutcome.alreadyDoneToday)) ∧
    (∀ h, t.lookup name = some h →
      (((t.mark_done name d).1.mark_done name d).1.lookup name).map
        (fun h2 => h2.completions.count d) = some 1) := by
  refine ⟨rfl, ?_, ?_, ?_, ?_⟩
  · by_cases hc : t.contains_key name = true
    · simpa [HabitTracker.add_habit, hc] using hinv
    · simp only [HabitTracker.add_habit, hc, if_neg, Bool.false_eq_true,
        not_false_iff, if_false]
      intro p hp
      rcases List.mem_append.mp hp with hp | hp
      · exact hinv p hp
      · simp only [List.mem_singleton] at hp
        subst hp
        exact List.nodup_nil
  · exact markList_nodup hinv
  · intro h hl hd
    rw [HabitTracker.lookup] at hl
    cases hf : t.habits.find? (fun p => p.1 = name) with
    | none => rw [hf] at hl; cases hl
    | some pr =>
        rw [hf] at hl
        have hsnd : pr.2 = h := by simpa using hl
        have := markList_of_already hf (hsnd ▸ hd)
        simp [HabitTracker.mark_done, this]
  · intro h hl
    have hnd : h.completions.Nodup := by
      obtain ⟨k, hk⟩ := mem_of_lookup hl
      exact hinv (k, h) hk
    have h1 := lookup_mark_done (d := d) hl
    have h2 := lookup_mark_done (d := d) h1
    rw [h2, markHabit_idem]
    simp [count_markHabit hnd]

/-- Witness for C4 on a concrete two-habit store satisfying the invariant:
marking `"workout"` done twice on day 7 leaves exactly one occurrence. -/
theorem completion_date_unique_invariant_witness :
    StoreInv ⟨[("workout", ⟨"workout", [5]⟩), ("reading", ⟨"reading", []⟩)]⟩ ∧
    StoreInv ((HabitTracker.add_habit
      ⟨[("workout", ⟨"workout", [5]⟩), ("reading", ⟨"reading", []⟩)]⟩ "yoga").1) ∧
    StoreInv ((HabitTracker.mark_done
      ⟨[("workout", ⟨"workout", [5]⟩), ("reading", ⟨"reading", []⟩)]⟩ "workout" 7).1) ∧
    HabitTracker.mark_done
      ⟨[("workout", ⟨"workout", [5]⟩), ("reading", ⟨"reading", []⟩)]⟩ "workout" 5 =
      (⟨[("workout", ⟨"workout", [5]⟩), ("reading", ⟨"reading", []⟩)]⟩,
        MarkOutcome.alreadyDoneToday) ∧
    ((((HabitTracker.mark_done
      ⟨[("workout", ⟨"workout", [5]⟩), ("reading", ⟨"reading", []⟩)]⟩
        "workout" 7).1.mark_done "workout" 7).1.lookup "workout").map
      (fun h2 => h2.completions.count 7)) = some 1 := by
  refine ⟨by decide, ?_, ?_, ?_, ?_⟩
  · exact (completion_date_unique_invariant
      ⟨[("workout", ⟨"workout", [5]⟩), ("reading", ⟨"reading", []⟩)]⟩ "yoga" 7
      (by decide)).2.1
  · exact (completion_date_unique_invariant
      ⟨[("workout", ⟨"workout", [5]⟩), ("reading", ⟨"reading", []⟩)]⟩ "workout" 7
      (by decide)).2.2.1
  · exact (completion_date_unique_invariant
      ⟨[("workout", ⟨"workout", [5]⟩), ("reading", ⟨"reading", []⟩)]⟩ "workout" 5
      (by decide)).2.2.2.1 ⟨"workout", [5]⟩ (by decide) (by decide)
  · exact (completion_date_unique_invariant
      ⟨[("workout", ⟨"workout", [5]⟩), ("reading", ⟨"reading", []⟩)]⟩ "workout" 7
      (by decide)).2.2.2.2 ⟨"workout", [5]⟩ (by decide)

/-! ## The streak algorithm (C1, C2, C9, C10) -/

theorem streakLoop_eq_specWalk :
    ∀ (l : List Int) (current : Int) (streak : Nat),
      NaiveDate.minDay + l.length ≤ current →
      streakLoop l current streak = some (streak + specWalk l current)
  | [], _, _, _ => by simp [streakLoop, specWalk]
  | d :: rest, current, streak, hbound => by
      by_cases hd : d = current
      · have hlt : NaiveDate.minDay < current := by
          simp only [List.length_cons] at hbound
          omega
        have hpred : NaiveDate.pred_opt current = some (current - 1) := by
          simp [NaiveDate.pred_opt, hlt]
        have hrec := streakLoop_eq_specWalk rest (current - 1) (streak + 1)
          (by simp only [List.length_cons] at hbound; push_cast at hbound ⊢; omega)
        simp only [streakLoop, if_pos hd, hpred, hrec, specWalk]
        exact congrArg some (by omega)
      · simp [streakLoop, specWalk, hd]

/-- `calculate_streak` refines the spec's reference algorithm whenever the
walk cannot step below the minimum representable date. -/
theorem calcStreak_eq_spec (h : Habit) (today : Int)
    (hbound : NaiveDate.minDay + h.completions.length ≤ today) :
    h.calculate_streak today = some (specStreak h.completions today) := by
  by_cases he : h.completions = []
  · simp [Habit.calculate_streak, specStreak, he, streakLoop]
  · have he' : ¬h.completions.isEmpty := by
      cases hc : h.completions with
      | nil => exact absurd hc he
      | cons a l => simp [hc]
    rw [Habit.calculate_streak, if_neg he', specStreak, if_neg he]
    have := streakLoop_eq_specWalk (sortDescending h.completions) today 0
      (by rw [length_sortDescending]; exact hbound)
    simpa using this

theorem specStreak_consecutive_three (today : Int) :
    specStreak [today - 1, today, today - 2] today = 3 := by
  have h1 : ¬(today ≤ today - 2) := by omega
  have h2 : today - 1 ≤ today := by omega
  have h3 : ¬(today - 1 ≤ today - 2) := by omega
  have h4 : today - 2 = today - 1 - 1 := by omega
  have hsort : sortDescending [today - 1, today, today - 2] =
      [today, today - 1, today - 2] := by
    simp [sortDescending, List.insertionSort, List.orderedInsert, h1, h2, h3]
  have hwalk : specWalk [today, today - 1, today - 1 - 1] today = 3 := by
    simp [specWalk]
  rw [specStreak, if_neg (by simp), hsort, h4, hwalk]

theorem specStreak_gap_one (today : Int) :
    specStreak [today, today - 3] today = 1 := by
  have h1 : ¬(today ≤ today - 3) := by omega
  have h2 : ¬(today - 3 = today - 1) := by omega
  have hsort : sortDescending [today, today - 3] = [today, today - 3] := by
    simp [sortDescending, List.insertionSort, List.orderedInsert, h1]
  have hwalk : specWalk [today, today - 3] today = 1 := by
    simp [specWalk, h2]
  rw [specStreak, if_neg (by simp), hsort, hwalk]

/-- **C1 (counterexample).** As universally stated, the claim fails at the
minimum representable date: with a single completion on `NaiveDate::MIN` and
`today = NaiveDate::MIN`, `calculate_streak` panics on `pred_opt().unwrap()`
(`none` in the model) while the spec's reference algorithm yields 1. -/
theorem calculate_streak_spec_mismatch_at_min_date :
    Habit.calculate_streak
        { name := "workout", completions := [NaiveDate.minDay] }
        NaiveDate.minDay = none ∧
    specStreak [NaiveDate.minDay] NaiveDate.minDay = 1 := by
  constructor <;> decide

/-- **C1 (amended).** `calculate_streak` matches the spec's reference
algorithm — walk the dates sorted most-recent-first from `expected = today`,
counting matches and stopping on the first mismatch, 0 on an empty
collection — whenever the walk stays above the minimum representable date
(`today` minus the collection length is representable; always true for real
clock dates).  In particular a habit completed on today, yesterday, and the
day before has streak 3, and one completed today and three days ago has
streak 1. -/
theorem calculate_streak_matches_spec (h : Habit) (today : Int)
    (hrep : NaiveDate.minDay + h.completions.length ≤ today)
    (hrep3 : NaiveDate.minDay + 3 ≤ today) :
    h.calculate_streak today = some (specStreak h.completions today) ∧
    Habit.calculate_streak
      { name := h.name, completions := [today - 1, today, today - 2] } today =
      some 3 ∧
    Habit.calculate_streak
      { name := h.name, completions := [today, today - 3] } today = some 1 := by
  refine ⟨calcStreak_eq_spec h today hrep, ?_, ?_⟩
  · rw [calcStreak_eq_spec _ today
      (by simp only [List.length_cons, List.length_nil]; push_cast; omega),
      specStreak_consecutive_three]
  · rw [calcStreak_eq_spec _ today
      (by simp only [List.length_cons, List.length_nil]; push_cast; omega),
      specStreak_gap_one]

/-- Witness for C1 (amended) at `today = 100` with completions on days
100, 99, 98. -/
theorem calculate_streak_matches_spec_witness :
    NaiveDate.minDay + ([100, 99, 98] : List Int).length ≤ 100 ∧
    NaiveDate.minDay + 3 ≤ (100 : Int) ∧
    Habit.calculate_streak { name := "w", completions := [100, 99, 98] } 100 =
      some (specStreak [100, 99, 98] 100) ∧
    Habit.calculate_streak
      { name := "w", completions := [100 - 1, 100, 100 - 2] } 100 = some 3 ∧
    Habit.calculate_streak
      { name := "w", completions := [100, 100 - 3] } 100 = some 1 := by
  have H := calculate_streak_matches_spec
    { name := "w", completions := [100, 99, 98] } 100 (by decide) (by decide)
  exact ⟨by decide, by decide, H.1, H.2.1, H.2.2⟩

/-- **C2.** For every habit whose completion collection does not contain
today's date, `calculate_streak` returns 0, even if yesterday and every
prior day are present. -/
theorem streak_zero_without_today (h : Habit) (today : Int)
    (habs : today ∉ h.completions) :
    h.calculate_streak today = some 0 := by
  rw [Habit.calculate_streak]
  by_cases he : h.completions.isEmpty
  · rw [if_pos he]
  · rw [if_neg he]
    cases hs : sortDescending h.completions with
    | nil => simp [streakLoop]
    | cons d rest =>
        have hd : d ∈ h.completions :=
          mem_of_mem_sortDescending (hs ▸ List.mem_cons_self d rest)
        have hne : ¬(d = today) := fun h' => habs (h' ▸ hd)
        simp [streakLoop, hne]

/-- Witness for C2: yesterday and the day before completed, today absent. -/
theorem streak_zero_without_today_witness :
    (100 : Int) ∉ ([99, 98] : List Int) ∧
    Habit.calculate_streak { name := "w", completions := [99, 98] } 100 =
      some 0 :=
  ⟨by decide,
    streak_zero_without_today { name := "w", completions := [99, 98] } 100
      (by decide)⟩

/-- **C10.** `pred_opt().unwrap()` cannot panic when `today` minus the length
of the completion list is still a representable date: `calculate_streak`
returns a value (`some`). -/
theorem calculate_streak_no_panic (h : Habit) (today : Int)
    (hrep : NaiveDate.minDay + h.completions.length ≤ today) :
    ∃ s, h.calculate_streak today = some s :=
  ⟨specStreak h.completions today, calcStreak_eq_spec h today hrep⟩

/-- Witness for C10 at a two-completion habit and a modern date. -/
theorem calculate_streak_no_panic_witness :
    NaiveDate.minDay + ([100, 99] : List Int).length ≤ 100 ∧
    ∃ s, Habit.calculate_streak { name := "w", completions := [100, 99] } 100 =
      some s :=
  ⟨by decide,
    calculate_streak_no_panic { name := "w", completions := [100, 99] } 100
      (by decide)⟩

theorem streakLoop_visited :
    ∀ (l : List Int) (current : Int) (streak s : Nat),
      streakLoop l current streak = some s →
      ∃ dl : List Int, dl.Nodup ∧ dl ⊆ l ∧ (∀ x ∈ dl, x ≤ current) ∧
        streak + dl.length = s
  | [], _, streak, s, hres => by
      refine ⟨[], List.nodup_nil, by simp, by simp, ?_⟩
      simpa [streakLoop] using hres
  | d :: rest, current, streak, s, hres => by
      by_cases hd : d = current
      · rw [streakLoop, if_pos hd] at hres
        cases hp : NaiveDate.pred_opt current with
        | none => rw [hp] at hres; cases hres
        | some prev =>
            rw [hp] at hres
            have hprev : prev = current - 1 := by
              by_cases hlt : NaiveDate.minDay < current
              · simpa [NaiveDate.pred_opt, hlt] using hp.symm
              · simp [NaiveDate.pred_opt, hlt] at hp
            subst hprev
            obtain ⟨dl, hnd, hsub, hle, hlen⟩ :=
              streakLoop_visited rest (current - 1) (streak + 1) s hres
            refine ⟨current :: dl, ?_, ?_, ?_, ?_⟩
            · refine List.nodup_cons.mpr ⟨fun hmem => ?_, hnd⟩
              have := hle current hmem
              omega
            · intro x hx
              rcases List.mem_cons.mp hx with hx | hx
              · subst hx; exact hd ▸ List.mem_cons_self d rest
              · exact List.mem_cons_of_mem d (hsub hx)
            · intro x hx
              rcases List.mem_cons.mp hx with hx | hx
              · subst hx; exact le_refl _
              · have := hle x hx; omega
            · simp only [List.length_cons]; omega
      · rw [streakLoop, if_neg hd] at hres
        refine ⟨[], List.nodup_nil, by simp, by simp, ?_⟩
        simpa using hres

/-- **C9.** Even on completion lists that (contrary to the store invariant)
repeat a date, `calculate_streak` never counts the same calendar date twice:
a returned streak is at most the number of distinct dates in the list. -/
theorem streak_never_double_counts (h : Habit) (today : Int) (s : Nat)
    (hres : h.calculate_streak today = some s) :
    s ≤ h.completions.dedup.length := by
  rw [Habit.calculate_streak] at hres
  by_cases he : h.completions.isEmpty
  · rw [if_pos he] at hres
    have : s = 0 := by simpa using hres.symm
    simp [this]
  · rw [if_neg he] at hres
    obtain ⟨dl, hnd, hsub, _, hlen⟩ :=
      streakLoop_visited (sortDescending h.completions) today 0 s hres
    have hsub' : dl ⊆ h.completions.dedup := fun x hx =>
      List.mem_dedup.mpr (mem_of_mem_sortDescending (hsub hx))
    have := (hnd.subperm hsub').length_le
    omega

/-- Witness for C9 on a duplicate-ridden list: completions
`[100, 100, 99, 99]` give streak 1, and 1 is at most the 2 distinct dates. -/
theorem streak_never_double_counts_witness :
    Habit.calculate_streak { name := "w", completions := [100, 100, 99, 99] }
      100 = some 1 ∧
    1 ≤ (([100, 100, 99, 99] : List Int).dedup).length :=
  ⟨by decide,
    streak_never_double_counts
      { name := "w", completions := [100, 100, 99, 99] } 100 1 (by decide)⟩

end HabitTrackerModel
